import Mathlib

/-!
Verification of the real-time spectral-analysis pipeline of the music
visualizer (`src/main.rs`).

The analyzer thread (function `start_audio_processing`) repeatedly
  * copies an `FFT_SIZE`-sample window of the decoded sample buffer into a
    complex buffer, zero-padding past the end of the buffer,
  * runs a forward FFT and converts the first `FFT_SIZE / 2` bins to
    normalized decibel values,
  * accumulates the normalized values into three band sums (bass / mid /
    high) by comparing each bin's center frequency with 250 Hz and 2000 Hz,
  * publishes the spectrum and the three divided band sums into the shared
    state, and
  * advances the cursor by `FFT_SIZE / 2`, wrapping to 0 at the end of the
    buffer.

Sample values and all arithmetic on them are modelled over `ℝ`; the one
place where IEEE-754 special values are essential — `log10` applied to a
zero magnitude, which yields negative infinity in `f32` — is modelled by
the type `F32` below, which carries an exact real together with the three
special values `negInf`, `posInf` and `nan`, and whose operations follow
the IEEE-754 rules on those values.  Bin center frequencies
`i * 44100 / 2048` and their comparisons against the literals `250.0` and
`2000.0` are exact in `f32` (numerator below `2^26`, denominator a power of
two), so they are modelled by exact rational arithmetic.
-/

/-- Transform size, `const FFT_SIZE: usize = 2048` in the source. -/
def FFT_SIZE : ℕ := 2048

/-- Sample rate, `const SAMPLE_RATE: u32 = 44100` in the source. -/
def SAMPLE_RATE : ℕ := 44100

/-- Decibel floor, `const MIN_DB: f32 = -60.0` in the source. -/
def MIN_DB : ℝ := -60

/-- Decibel ceiling, `const MAX_DB: f32 = 0.0` in the source. -/
def MAX_DB : ℝ := 0

/-- An `f32` quantity: an exact real (rounding is not modelled) or one of
the IEEE-754 special values. -/
inductive F32 where
  | fin (x : ℝ)
  | negInf
  | posInf
  | nan

namespace F32

/-- IEEE-754 addition on `F32` (`+=` on the band sums in the source):
finite values add exactly, an infinity absorbs finite values, opposite
infinities give `nan`, and `nan` propagates. -/
def addF : F32 → F32 → F32
  | fin x, fin y => fin (x + y)
  | fin _, negInf => negInf
  | fin _, posInf => posInf
  | fin _, nan => nan
  | negInf, fin _ => negInf
  | negInf, negInf => negInf
  | negInf, posInf => nan
  | negInf, nan => nan
  | posInf, fin _ => posInf
  | posInf, negInf => nan
  | posInf, posInf => posInf
  | posInf, nan => nan
  | nan, _ => nan

lemma addF_assoc (a b c : F32) : addF (addF a b) c = addF a (addF b c) := by
  cases a <;> cases b <;> cases c <;> simp [addF, add_assoc]

lemma addF_comm (a b : F32) : addF a b = addF b a := by
  cases a <;> cases b <;> simp [addF, add_comm]

lemma addF_zero_add (a : F32) : addF (fin 0) a = a := by
  cases a <;> simp [addF]

lemma addF_add_zero (a : F32) : addF a (fin 0) = a := by
  cases a <;> simp [addF]

/-- Iterated `addF`, used only to fill the monoid structure's `nsmul`
field. -/
def nsmulF : ℕ → F32 → F32
  | 0, _ => fin 0
  | n + 1, a => addF (nsmulF n a) a

noncomputable instance : AddCommMonoid F32 where
  add := addF
  zero := fin 0
  add_assoc := addF_assoc
  zero_add := addF_zero_add
  add_zero := addF_add_zero
  add_comm := addF_comm
  nsmul := nsmulF
  nsmul_zero := fun _ => rfl
  nsmul_succ := fun _ _ => rfl

lemma zero_def : (0 : F32) = fin 0 := rfl

lemma add_def (a b : F32) : a + b = addF a b := rfl

/-- IEEE-754 multiplication of an `F32` by a finite real constant
(`* 20.0` in the source): the sign of the constant orients an infinite
operand, `±∞ * 0` is `nan`, and `nan` propagates. -/
noncomputable def mulF : F32 → ℝ → F32
  | fin x, c => fin (x * c)
  | negInf, c => if 0 < c then negInf else if c < 0 then posInf else nan
  | posInf, c => if 0 < c then posInf else if c < 0 then negInf else nan
  | nan, _ => nan

/-- IEEE-754 subtraction of a finite real constant from an `F32`
(`- MIN_DB` in the source): infinities and `nan` are unchanged. -/
def subF : F32 → ℝ → F32
  | fin x, c => fin (x - c)
  | negInf, _ => negInf
  | posInf, _ => posInf
  | nan, _ => nan

/-- IEEE-754 division of an `F32` by a finite real constant (the band
normalizations and `/ (MAX_DB - MIN_DB)` in the source): a finite value
divided by zero gives a signed infinity (or `nan` for `0 / 0`), an
infinite value takes the divisor's sign, and `nan` propagates. -/
noncomputable def divF : F32 → ℝ → F32
  | fin x, c =>
      if c = 0 then (if 0 < x then posInf else if x < 0 then negInf else nan)
      else fin (x / c)
  | negInf, c => if 0 < c then negInf else if c < 0 then posInf else nan
  | posInf, c => if 0 < c then posInf else if c < 0 then negInf else nan
  | nan, _ => nan

end F32

/-- IEEE-754 `f32::log10` of an exact nonnegative-or-any real
(`.log10()` in the source): positive arguments give the exact base-10
logarithm, zero gives negative infinity, and negative arguments give
`nan`. -/
noncomputable def log10F (x : ℝ) : F32 :=
  if 0 < x then F32.fin (Real.logb 10 x) else if x = 0 then F32.negInf else F32.nan

/-- The complex window buffer of one analysis pass (source lines 66-72):
entry `i` holds sample `pos + i` of the decoded buffer, or zero amplitude
when `pos + i` runs past the end of the buffer.  The window is built by
index, never by wrapping around the buffer. -/
noncomputable def windowBuf (samples : List ℝ) (pos : ℕ) : List ℂ :=
  List.ofFn (fun i : Fin FFT_SIZE =>
    if pos + i.val < samples.length then ((samples.getD (pos + i.val) 0 : ℝ) : ℂ)
    else 0)

/-- Output bin `k` of the forward transform `fft.process` (source line 74):
the unnormalized discrete Fourier transform of the window buffer. -/
noncomputable def dftBin (buf : List ℂ) (k : ℕ) : ℂ :=
  ∑ j in Finset.range FFT_SIZE,
    buf.getD j 0 *
      Complex.exp (-(2 * Real.pi * Complex.I * (j : ℂ) * (k : ℂ)) / (FFT_SIZE : ℂ))

/-- The magnitude-to-normalized-decibel conversion of one bin (source
lines 78-79): `(magnitude / FFT_SIZE).log10() * 20.0`, then
`(db - MIN_DB) / (MAX_DB - MIN_DB)`. -/
noncomputable def normPipeline (m : ℝ) : F32 :=
  F32.divF (F32.subF (F32.mulF (log10F (m / (FFT_SIZE : ℝ))) 20) MIN_DB)
    (MAX_DB - MIN_DB)

/-- The spectrum published by one analysis pass (source lines 76-80): the
first `FFT_SIZE / 2` transform bins, each sent through `normPipeline`. -/
noncomputable def spectrumOf (buf : List ℂ) : List F32 :=
  List.ofFn (fun i : Fin (FFT_SIZE / 2) =>
    normPipeline (Complex.abs (dftBin buf i.val)))

/-- The spectrum of the analysis pass at cursor offset `pos`. -/
noncomputable def spectrumList (samples : List ℝ) (pos : ℕ) : List F32 :=
  spectrumOf (windowBuf samples pos)

/-- Center frequency of bin `i` (source line 87):
`i as f32 * SAMPLE_RATE as f32 / FFT_SIZE as f32`.  For `i < FFT_SIZE` the
`f32` value is exact (the numerator stays below `2^26` and the denominator
is a power of two), so the rational value is the computed one and the
comparisons against `250.0` and `2000.0` are faithful. -/
def binFreq (i : ℕ) : ℚ :=
  (i : ℚ) * (SAMPLE_RATE : ℚ) / (FFT_SIZE : ℚ)

/-- The three running band sums of one analysis pass. -/
structure Bands where
  bass : F32
  mid : F32
  high : F32

/-- One iteration of the band-aggregation loop (source lines 86-95): bin
`i`'s normalized value joins the bass sum when its center frequency is
below 250 Hz, else the mid sum when below 2000 Hz, else the high sum. -/
noncomputable def bandStep (sd : List F32) (acc : Bands) (i : ℕ) : Bands :=
  if binFreq i < 250 then ⟨acc.bass + sd.getD i 0, acc.mid, acc.high⟩
  else if binFreq i < 2000 then ⟨acc.bass, acc.mid + sd.getD i 0, acc.high⟩
  else ⟨acc.bass, acc.mid, acc.high + sd.getD i 0⟩

/-- The band sums after the aggregation loop over all `FFT_SIZE / 2` bins,
starting from `0.0` sums (source lines 82-95). -/
noncomputable def accumBands (sd : List F32) : Bands :=
  (List.range (FFT_SIZE / 2)).foldl (bandStep sd) ⟨0, 0, 0⟩

/-- The bins whose normalized values the loop adds to the bass sum. -/
def bassBins : Finset ℕ :=
  (Finset.range (FFT_SIZE / 2)).filter fun i => binFreq i < 250

/-- The bins whose normalized values the loop adds to the mid sum. -/
def midBins : Finset ℕ :=
  (Finset.range (FFT_SIZE / 2)).filter fun i =>
    ¬ binFreq i < 250 ∧ binFreq i < 2000

/-- The bins whose normalized values the loop adds to the high sum. -/
def highBins : Finset ℕ :=
  (Finset.range (FFT_SIZE / 2)).filter fun i =>
    ¬ binFreq i < 250 ∧ ¬ binFreq i < 2000

/-- The cursor advance (source lines 102-105): `pos += hop`, then reset to
`0` when the new offset reaches the end of the buffer.  The analysis loop
uses the fixed hop `FFT_SIZE / 2`. -/
def advanceCursor (hop len pos : ℕ) : ℕ :=
  if len ≤ pos + hop then 0 else pos + hop

/-- `k` cursor advances from offset 0, returning the final offset together
with how many advances reset the offset to zero. -/
def runCursor (hop len : ℕ) : ℕ → ℕ × ℕ
  | 0 => (0, 0)
  | k + 1 =>
      let r := runCursor hop len k
      (advanceCursor hop len r.1,
       if len ≤ r.1 + hop then r.2 + 1 else r.2)

/-- The mutex-guarded fields shared with the render thread (source lines
21-24, 97-100): the spectrum sequence and the three band energies. -/
structure SharedState where
  spectrum : List F32
  bass : F32
  mid : F32
  high : F32

/-- The analyzer thread's state: the cursor offset and the shared state it
publishes into. -/
structure LoopState where
  pos : ℕ
  shared : SharedState

/-- The state before the analyzer thread starts (source lines 29-37, 63):
`FFT_SIZE / 2` zeros in the spectrum, zero band energies, cursor at 0. -/
def initLoopState : LoopState :=
  ⟨0, ⟨List.replicate (FFT_SIZE / 2) (F32.fin 0), F32.fin 0, F32.fin 0, F32.fin 0⟩⟩

/-- One pass of the analysis loop (source lines 65-108): fill the window,
transform, normalize, aggregate bands, publish spectrum and divided band
sums, advance the cursor. -/
noncomputable def stepLoop (samples : List ℝ) (s : LoopState) : LoopState :=
  let sd := spectrumList samples s.pos
  let b := accumBands sd
  { pos := advanceCursor (FFT_SIZE / 2) samples.length s.pos
    shared :=
      { spectrum := sd
        bass := F32.divF b.bass 250
        mid := F32.divF b.mid 1750
        high := F32.divF b.high ((FFT_SIZE : ℝ) / 2 - 2000) } }

/-! ## Helper lemmas -/

lemma getD_ofFn {α : Type _} {n : ℕ} (f : Fin n → α) (i : ℕ) (h : i < n) (d : α) :
    (List.ofFn f).getD i d = f ⟨i, h⟩ := by
  rw [List.getD_eq_getElem (List.ofFn f) d (by simpa using h)]
  simp

lemma windowBuf_nil (pos : ℕ) : windowBuf [] pos = List.replicate FFT_SIZE 0 := by
  unfold windowBuf
  have h : (fun i : Fin FFT_SIZE =>
      if pos + i.val < ([] : List ℝ).length then
        ((([] : List ℝ).getD (pos + i.val) 0 : ℝ) : ℂ)
      else 0) = fun _ : Fin FFT_SIZE => (0 : ℂ) := by
    funext i
    simp
  rw [h, List.ofFn_const]

lemma dftBin_replicate_zero (k : ℕ) :
    dftBin (List.replicate FFT_SIZE (0 : ℂ)) k = 0 := by
  unfold dftBin
  apply Finset.sum_eq_zero
  intro j _
  have hj : (List.replicate FFT_SIZE (0 : ℂ)).getD j 0 = 0 := by
    rcases lt_or_ge j FFT_SIZE with h | h
    · rw [List.getD_eq_getElem _ _ (by simpa using h)]
      simp
    · rw [List.getD_eq_default _ _ (by simpa using h)]
  rw [hj, zero_mul]

lemma normPipeline_zero : normPipeline 0 = F32.negInf := by
  simp [normPipeline, log10F, F32.mulF, F32.subF, F32.divF, MIN_DB, MAX_DB]

lemma spectrumList_nil (pos : ℕ) :
    spectrumList [] pos = List.replicate (FFT_SIZE / 2) F32.negInf := by
  unfold spectrumList spectrumOf
  rw [windowBuf_nil]
  have h : (fun i : Fin (FFT_SIZE / 2) =>
      normPipeline (Complex.abs (dftBin (List.replicate FFT_SIZE 0) i.val))) =
      fun _ : Fin (FFT_SIZE / 2) => F32.negInf := by
    funext i
    rw [dftBin_replicate_zero]
    simpa using normPipeline_zero
  rw [h, List.ofFn_const]

lemma sum_const_negInf {s : Finset ℕ} (hs : s.Nonempty) :
    (∑ _i in s, F32.negInf) = F32.negInf := by
  induction hs using Finset.Nonempty.cons_induction with
  | singleton a => simp
  | cons a s ha hs ih => rw [Finset.sum_cons, ih]; rfl

lemma foldl_bandStep_range (sd : List F32) (n : ℕ) (b : Bands) :
    (List.range n).foldl (bandStep sd) b =
      ⟨b.bass + ∑ i in (Finset.range n).filter (fun i => binFreq i < 250),
          sd.getD i 0,
        b.mid + ∑ i in (Finset.range n).filter
          (fun i => ¬ binFreq i < 250 ∧ binFreq i < 2000), sd.getD i 0,
        b.high + ∑ i in (Finset.range n).filter
          (fun i => ¬ binFreq i < 250 ∧ ¬ binFreq i < 2000), sd.getD i 0⟩ := by
  induction n generalizing b with
  | zero => simp
  | succ n ih =>
      have hmem : ∀ p : ℕ → Prop, ∀ inst : DecidablePred p,
          n ∉ (Finset.range n).filter p := by
        intro p inst hn
        exact absurd (Finset.mem_range.mp (Finset.mem_filter.mp hn).1) (lt_irrefl n)
      rw [List.range_succ, List.foldl_append, List.foldl_cons, List.foldl_nil, ih,
        Finset.range_succ, Finset.filter_insert, Finset.filter_insert,
        Finset.filter_insert]
      by_cases h1 : binFreq n < 250
      · rw [if_pos h1,
          if_neg (show ¬(¬binFreq n < 250 ∧ binFreq n < 2000) from fun hc => hc.1 h1),
          if_neg (show ¬(¬binFreq n < 250 ∧ ¬binFreq n < 2000) from fun hc => hc.1 h1),
          Finset.sum_insert (hmem _ _)]
        simp only [bandStep, if_pos h1, Bands.mk.injEq, true_and, and_true]
        abel
      · by_cases h2 : binFreq n < 2000
        · rw [if_neg h1,
            if_pos (show ¬binFreq n < 250 ∧ binFreq n < 2000 from ⟨h1, h2⟩),
            if_neg (show ¬(¬binFreq n < 250 ∧ ¬binFreq n < 2000) from fun hc => hc.2 h2),
            Finset.sum_insert (hmem _ _)]
          simp only [bandStep, if_neg h1, if_pos h2, Bands.mk.injEq, true_and, and_true]
          abel
        · rw [if_neg h1,
            if_neg (show ¬(¬binFreq n < 250 ∧ binFreq n < 2000) from fun hc => h2 hc.2),
            if_pos (show ¬binFreq n < 250 ∧ ¬binFreq n < 2000 from ⟨h1, h2⟩),
            Finset.sum_insert (hmem _ _)]
          simp only [bandStep, if_neg h1, if_neg h2, Bands.mk.injEq, true_and, and_true]
          abel

lemma accumBands_eq (sd : List F32) :
    accumBands sd =
      ⟨∑ i in bassBins, sd.getD i 0, ∑ i in midBins, sd.getD i 0,
        ∑ i in highBins, sd.getD i 0⟩ := by
  unfold accumBands bassBins midBins highBins
  rw [foldl_bandStep_range]
  simp only [Bands.mk.injEq]
  refine ⟨?_, ?_, ?_⟩ <;> exact zero_add _

lemma getD_replicate_mem {α : Type _} {n i : ℕ} (h : i < n) (c d : α) :
    (List.replicate n c).getD i d = c := by
  rw [List.getD_eq_getElem _ _ (by simpa using h)]
  simp

lemma highBins_nonempty : highBins.Nonempty := by
  refine ⟨93, Finset.mem_filter.mpr ⟨Finset.mem_range.mpr (by norm_num [FFT_SIZE]), ?_, ?_⟩⟩
  · norm_num [binFreq, SAMPLE_RATE, FFT_SIZE]
  · norm_num [binFreq, SAMPLE_RATE, FFT_SIZE]

lemma accumBands_negInf_high :
    (accumBands (List.replicate (FFT_SIZE / 2) F32.negInf)).high = F32.negInf := by
  rw [accumBands_eq]
  have h : ∑ i in highBins, (List.replicate (FFT_SIZE / 2) F32.negInf).getD i 0 =
      ∑ _i in highBins, F32.negInf := by
    apply Finset.sum_congr rfl
    intro i hi
    have : i < FFT_SIZE / 2 :=
      Finset.mem_range.mp (Finset.mem_filter.mp hi).1
    exact getD_replicate_mem this _ _
  rw [h, sum_const_negInf highBins_nonempty]

lemma runCursor_no_wrap (hop len : ℕ) :
    ∀ m : ℕ, m * hop < len → runCursor hop len m = (m * hop, 0) := by
  intro m
  induction m with
  | zero => intro _; simp [runCursor]
  | succ m ih =>
      intro h
      have hm : m * hop < len :=
        lt_of_le_of_lt (Nat.mul_le_mul_right hop (Nat.le_succ m)) h
      have hstep : ¬ len ≤ m * hop + hop := by
        rw [Nat.succ_mul] at h
        omega
      simp only [runCursor, ih hm, advanceCursor, hstep, if_false, if_neg hstep]
      rw [Nat.succ_mul]

lemma divF_negInf_pos {c : ℝ} (hc : 0 < c) : F32.divF F32.negInf c = F32.negInf := by
  simp [F32.divF, hc]

lemma divF_negInf_neg {c : ℝ} (hc : c < 0) : F32.divF F32.negInf c = F32.posInf := by
  have h0 : ¬ (0 < c) := not_lt.mpr hc.le
  simp [F32.divF, h0, hc]

/-! ## Claims -/

/-- C4: for every buffer length and cursor offset, the advance adds the fixed
hop `FFT_SIZE / 2 = 1024` to the offset and resets the offset to 0 exactly
when the new offset is at least the buffer length; it is total (a plain
function) and the analysis loop's new cursor offset is exactly this value. -/
theorem cursor_advance_spec :
    ∀ len pos : ℕ,
      advanceCursor (FFT_SIZE / 2) len pos =
        (if len ≤ pos + FFT_SIZE / 2 then 0 else pos + FFT_SIZE / 2) ∧
      (advanceCursor (FFT_SIZE / 2) len pos = 0 ↔ len ≤ pos + FFT_SIZE / 2) ∧
      FFT_SIZE / 2 = 1024 ∧
      (∀ (samples : List ℝ) (s : LoopState),
        (stepLoop samples s).pos = advanceCursor (FFT_SIZE / 2) samples.length s.pos) := by
  intro len pos
  have hval : FFT_SIZE / 2 = 1024 := by norm_num [FFT_SIZE]
  refine ⟨rfl, ⟨?_, ?_⟩, hval, fun samples s => rfl⟩
  · intro h
    by_contra hc
    unfold advanceCursor at h
    rw [if_neg hc] at h
    omega
  · intro h
    unfold advanceCursor
    rw [if_pos h]

/-- C5: entry `i` of the window buffer holds sample `pos + i` when that index
is inside the buffer and zero amplitude otherwise; an index past the end
yields zero, never a sample wrapped from the start of the buffer. -/
theorem window_zero_padding :
    ∀ (samples : List ℝ) (pos i : ℕ), i < FFT_SIZE →
      ((windowBuf samples pos).getD i 0 =
        if pos + i < samples.length then ((samples.getD (pos + i) 0 : ℝ) : ℂ) else 0) ∧
      (samples.length ≤ pos + i → (windowBuf samples pos).getD i 0 = 0) := by
  intro samples pos i h
  have h1 : (windowBuf samples pos).getD i 0 =
      if pos + i < samples.length then ((samples.getD (pos + i) 0 : ℝ) : ℂ) else 0 := by
    unfold windowBuf
    rw [getD_ofFn _ i h]
  refine ⟨h1, fun hle => ?_⟩
  rw [h1, if_neg (by omega)]

/-- Witness for C5: the window over buffer [1, 2] at offset 1 and index 0
is in range, and the characterization holds there. -/
theorem window_zero_padding_witness :
    0 < FFT_SIZE ∧
      (((windowBuf [1, 2] 1).getD 0 0 =
        if 1 + 0 < ([1, 2] : List ℝ).length then
          ((([1, 2] : List ℝ).getD (1 + 0) 0 : ℝ) : ℂ)
        else 0) ∧
      (([1, 2] : List ℝ).length ≤ 1 + 0 → (windowBuf [1, 2] 1).getD 0 0 = 0)) :=
  ⟨by norm_num [FFT_SIZE], window_zero_padding [1, 2] 1 0 (by norm_num [FFT_SIZE])⟩

/-- C6: for every non-empty buffer length `L` and positive hop `H`, starting
from offset 0, after exactly `⌈L / H⌉` advances the offset is strictly below
`H` and the reset-to-zero wrap fired exactly once. -/
theorem cursor_wrap_once :
    ∀ L H : ℕ, 0 < L → 0 < H →
      (runCursor H L ((L + H - 1) / H)).1 < H ∧
      (runCursor H L ((L + H - 1) / H)).2 = 1 := by
  intro L H hL hH
  have hk1 : 1 ≤ (L + H - 1) / H := by
    apply Nat.le_div_iff_mul_le hH |>.mpr
    omega
  have hkH : (L + H - 1) / H * H ≤ L + H - 1 := Nat.div_mul_le_self _ _
  have hL_le : L ≤ (L + H - 1) / H * H := by
    by_contra hc
    push_neg at hc
    have h2 : ((L + H - 1) / H + 1) * H ≤ L + H - 1 := by
      have h2a : (L + H - 1) / H * H + H ≤ L + H - 1 := by omega
      calc ((L + H - 1) / H + 1) * H = (L + H - 1) / H * H + H := by ring
        _ ≤ L + H - 1 := h2a
    have h3 : (L + H - 1) / H + 1 ≤ (L + H - 1) / H :=
      Nat.le_div_iff_mul_le hH |>.mpr h2
    omega
  obtain ⟨m, hm⟩ : ∃ m, (L + H - 1) / H = m + 1 := ⟨(L + H - 1) / H - 1, by omega⟩
  rw [hm]
  have hmul : (m + 1) * H = m * H + H := by ring
  have hprev : m * H < L := by
    have h3 : m * H + H ≤ L + H - 1 := by
      calc m * H + H = (m + 1) * H := by ring
        _ = (L + H - 1) / H * H := by rw [hm]
        _ ≤ L + H - 1 := hkH
    omega
  have hwrap : L ≤ m * H + H := by
    have h4 : L ≤ (m + 1) * H := by rw [← hm]; exact hL_le
    omega
  have hrun : runCursor H L m = (m * H, 0) := runCursor_no_wrap H L m hprev
  simp only [runCursor, hrun, advanceCursor, if_pos hwrap]
  exact ⟨hH, trivial⟩

/-- Witness for C6 at buffer length 5 and hop 2 (three advances: 0 to 2 to 4
to 0, one wrap). -/
theorem cursor_wrap_once_witness :
    0 < 5 ∧ 0 < 2 ∧
      ((runCursor 2 5 ((5 + 2 - 1) / 2)).1 < 2 ∧
        (runCursor 2 5 ((5 + 2 - 1) / 2)).2 = 1) :=
  ⟨by decide, by decide, cursor_wrap_once 5 2 (by decide) (by decide)⟩

/-- C8: one analysis pass is a pure function of the sample buffer and the
cursor offset: two passes started at the same offset over the same buffer
produce identical published frames and identical new states, whatever the
previously published shared state was. -/
theorem analysis_deterministic :
    ∀ (samples : List ℝ) (s t : LoopState), s.pos = t.pos →
      stepLoop samples s = stepLoop samples t := by
  intro samples s t h
  unfold stepLoop
  rw [h]

/-- Witness for C8: two states with equal cursor offset 0 but different
previously published shared fields step to the same result. -/
theorem analysis_deterministic_witness :
    stepLoop [] ⟨0, ⟨[], F32.nan, F32.nan, F32.nan⟩⟩ = stepLoop [] initLoopState :=
  analysis_deterministic [] ⟨0, ⟨[], F32.nan, F32.nan, F32.nan⟩⟩ initLoopState rfl

/-- C10: with an empty decoded sample sequence the loop is still safe: every
pass reads an all-zero window (the bounds check turns every position into
silence), every advance resets the cursor to 0, and the cursor stays 0 over
any number of loop iterations. -/
theorem empty_buffer_safe :
    (∀ pos, windowBuf [] pos = List.replicate FFT_SIZE 0) ∧
    (∀ pos, advanceCursor (FFT_SIZE / 2) 0 pos = 0) ∧
    (∀ n, ((stepLoop []) ^[n] initLoopState).pos = 0) := by
  refine ⟨windowBuf_nil, fun pos => ?_, fun n => ?_⟩
  · unfold advanceCursor
    rw [if_pos (Nat.zero_le _)]
  · induction n with
    | zero => rfl
    | succ n ih =>
        rw [Function.iterate_succ_apply']
        simp only [stepLoop]
        unfold advanceCursor
        rw [if_pos (by simp)]

/-- C7: the shared spectrum always has exactly `FFT_SIZE / 2` entries: it is
initialized with `FFT_SIZE / 2` zeros before the analyzer thread starts,
every publish overwrites it with a freshly computed sequence of exactly
`FFT_SIZE / 2` values, and hence every state the loop reaches carries a
spectrum of `FFT_SIZE / 2` values. -/
theorem spectrum_length_invariant :
    initLoopState.shared.spectrum = List.replicate (FFT_SIZE / 2) (F32.fin 0) ∧
    (∀ (samples : List ℝ) (s : LoopState),
      (stepLoop samples s).shared.spectrum.length = FFT_SIZE / 2) ∧
    (∀ (samples : List ℝ) (n : ℕ),
      ((stepLoop samples) ^[n] initLoopState).shared.spectrum.length = FFT_SIZE / 2) := by
  have hstep : ∀ (samples : List ℝ) (s : LoopState),
      (stepLoop samples s).shared.spectrum.length = FFT_SIZE / 2 := by
    intro samples s
    simp only [stepLoop]
    unfold spectrumList spectrumOf
    exact List.length_ofFn _
  refine ⟨rfl, hstep, fun samples n => ?_⟩
  cases n with
  | zero =>
      show (List.replicate (FFT_SIZE / 2) (F32.fin 0)).length = FFT_SIZE / 2
      exact List.length_replicate _ _
  | succ n =>
      rw [Function.iterate_succ_apply']
      exact hstep samples _

/-- C9: every one of the `FFT_SIZE / 2` normalized values joins exactly one
band sum — bass below 250 Hz, mid below 2000 Hz, high otherwise: the three
bin sets are pairwise disjoint and cover all bins — and therefore the three
sums before division add up to the sum of the whole spectrum. -/
theorem band_partition_total :
    ∀ sd : List F32,
      (accumBands sd).bass = ∑ i in bassBins, sd.getD i 0 ∧
      (accumBands sd).mid = ∑ i in midBins, sd.getD i 0 ∧
      (accumBands sd).high = ∑ i in highBins, sd.getD i 0 ∧
      bassBins ∪ midBins ∪ highBins = Finset.range (FFT_SIZE / 2) ∧
      Disjoint bassBins midBins ∧ Disjoint bassBins highBins ∧
      Disjoint midBins highBins ∧
      (accumBands sd).bass + (accumBands sd).mid + (accumBands sd).high =
        ∑ i in Finset.range (FFT_SIZE / 2), sd.getD i 0 := by
  intro sd
  have he := accumBands_eq sd
  have hd1 : Disjoint bassBins midBins := by
    rw [Finset.disjoint_left]
    intro a ha hb
    exact (Finset.mem_filter.mp hb).2.1 (Finset.mem_filter.mp ha).2
  have hd2 : Disjoint bassBins highBins := by
    rw [Finset.disjoint_left]
    intro a ha hb
    exact (Finset.mem_filter.mp hb).2.1 (Finset.mem_filter.mp ha).2
  have hd3 : Disjoint midBins highBins := by
    rw [Finset.disjoint_left]
    intro a ha hb
    exact (Finset.mem_filter.mp hb).2.2 (Finset.mem_filter.mp ha).2.2
  have hu : bassBins ∪ midBins ∪ highBins = Finset.range (FFT_SIZE / 2) := by
    ext i
    simp only [bassBins, midBins, highBins, Finset.mem_union, Finset.mem_filter,
      Finset.mem_range]
    constructor
    · rintro ((h | h) | h) <;> exact h.1
    · intro h
      by_cases h1 : binFreq i < 250
      · exact Or.inl (Or.inl ⟨h, h1⟩)
      · by_cases h2 : binFreq i < 2000
        · exact Or.inl (Or.inr ⟨h, h1, h2⟩)
        · exact Or.inr ⟨h, h1, h2⟩
  refine ⟨by rw [he], by rw [he], by rw [he], hu, hd1, hd2, hd3, ?_⟩
  have hd4 : Disjoint (bassBins ∪ midBins) highBins :=
    Finset.disjoint_union_left.mpr ⟨hd2, hd3⟩
  rw [he]
  dsimp only
  rw [← Finset.sum_union hd1, ← Finset.sum_union hd4, hu]

/-- C1 counterexample: at the concrete pass over the empty sample buffer the
published high-band energy is `+∞` (the high sum `-∞` divided by the negative
constant `FFT_SIZE / 2 - 2000 = -976`), while dividing the same high sum by
the frequency width above 2000 Hz up to the top of the analyzed spectrum
(`SAMPLE_RATE / 2 - 2000 = 20050` Hz) gives `-∞`; the two differ, so the
claimed divisor is not the one the code uses. -/
theorem band_high_divisor_cex :
    (stepLoop [] initLoopState).shared.high = F32.posInf ∧
    F32.divF (accumBands (spectrumList [] initLoopState.pos)).high
      ((SAMPLE_RATE : ℝ) / 2 - 2000) = F32.negInf ∧
    (stepLoop [] initLoopState).shared.high ≠
      F32.divF (accumBands (spectrumList [] initLoopState.pos)).high
        ((SAMPLE_RATE : ℝ) / 2 - 2000) := by
  have hh : (accumBands (spectrumList [] initLoopState.pos)).high = F32.negInf := by
    show (accumBands (spectrumList [] 0)).high = F32.negInf
    rw [spectrumList_nil]
    exact accumBands_negInf_high
  have h1 : (stepLoop [] initLoopState).shared.high = F32.posInf := by
    simp only [stepLoop]
    rw [hh, divF_negInf_neg (by norm_num [FFT_SIZE])]
  have h2 : F32.divF (accumBands (spectrumList [] initLoopState.pos)).high
      ((SAMPLE_RATE : ℝ) / 2 - 2000) = F32.negInf := by
    rw [hh, divF_negInf_pos (by norm_num [SAMPLE_RATE])]
  refine ⟨h1, h2, ?_⟩
  rw [h1, h2]
  exact fun hcon => F32.noConfusion hcon

/-- C1 (amended): after summation the pass divides the bass sum by 250, the
mid sum by 1750, and the high sum by the constant
`FFT_SIZE as f32 / 2.0 - 2000.0 = -976` — the bin count `FFT_SIZE / 2` minus
the 2000 Hz threshold, a negative number — not by the remaining frequency
width of the analyzed spectrum, and publishes these quotients as the three
band-energy values. -/
theorem band_divisors_amended :
    ∀ (samples : List ℝ) (s : LoopState),
      (stepLoop samples s).shared.bass =
        F32.divF (∑ i in bassBins, (spectrumList samples s.pos).getD i 0) 250 ∧
      (stepLoop samples s).shared.mid =
        F32.divF (∑ i in midBins, (spectrumList samples s.pos).getD i 0) 1750 ∧
      (stepLoop samples s).shared.high =
        F32.divF (∑ i in highBins, (spectrumList samples s.pos).getD i 0)
          ((FFT_SIZE : ℝ) / 2 - 2000) ∧
      (FFT_SIZE : ℝ) / 2 - 2000 = -976 := by
  intro samples s
  have he := accumBands_eq (spectrumList samples s.pos)
  refine ⟨?_, ?_, ?_, by norm_num [FFT_SIZE]⟩ <;>
    simp only [stepLoop] <;> rw [he]

/-- C2 counterexample: the all-zero window (the empty sample buffer) makes
spectrum bin 0 equal to `-∞` — the unguarded `log10` of a zero magnitude —
which is not the finite constant obtained by normalizing a `-60` dB
magnitude (that constant is `(MIN_DB - MIN_DB) / (MAX_DB - MIN_DB) = 0`). -/
theorem zero_window_spectrum_cex :
    (spectrumList [] 0).getD 0 0 = F32.negInf ∧
    (spectrumList [] 0).getD 0 0 ≠
      F32.fin ((MIN_DB - MIN_DB) / (MAX_DB - MIN_DB)) := by
  have h1 : (spectrumList [] 0).getD 0 0 = F32.negInf := by
    rw [spectrumList_nil]
    exact getD_replicate_mem (by norm_num [FFT_SIZE]) _ _
  refine ⟨h1, ?_⟩
  rw [h1]
  exact fun hcon => F32.noConfusion hcon

/-- C2 (amended): for an all-zero input window every one of the
`FFT_SIZE / 2` spectrum values equals negative infinity: the transform of
the zero window is zero, its magnitude is zero, and the code applies
`log10` with no floor, so the `-60` dB floor never comes into play and the
published value is `-∞` (not NaN, but not a finite constant either). -/
theorem zero_window_spectrum_amended :
    ∀ (pos : ℕ) (i : Fin (FFT_SIZE / 2)),
      (spectrumList [] pos).getD i.val 0 = F32.negInf := by
  intro pos i
  rw [spectrumList_nil]
  exact getD_replicate_mem i.isLt _ _

/-- C3: each of the first `FFT_SIZE / 2` transform bins is published as its
magnitude divided by `FFT_SIZE`, passed through the base-10 logarithm,
scaled by 20 into decibels, and linearly mapped with `-60` dB at `0.0` and
`0` dB at `1.0`; the map is the unclamped affine map `db / 60 + 1`, and
values below `0.0` and above `1.0` actually occur (no clamping). -/
theorem db_conversion_spec :
    ∀ (buf : List ℂ) (i : ℕ), i < FFT_SIZE / 2 →
      (spectrumOf buf).getD i 0 = normPipeline (Complex.abs (dftBin buf i)) ∧
      (∀ m : ℝ, 0 < m →
        normPipeline m =
          F32.fin ((Real.logb 10 (m / (FFT_SIZE : ℝ)) * 20 - MIN_DB) /
            (MAX_DB - MIN_DB))) ∧
      (MIN_DB - MIN_DB) / (MAX_DB - MIN_DB) = 0 ∧
      (MAX_DB - MIN_DB) / (MAX_DB - MIN_DB) = 1 ∧
      (∀ db : ℝ, (db - MIN_DB) / (MAX_DB - MIN_DB) = db / 60 + 1) ∧
      (∃ m : ℝ, 0 < m ∧ normPipeline m = F32.fin (-1)) ∧
      (∃ m : ℝ, 0 < m ∧ normPipeline m = F32.fin 2) := by
  intro buf i h
  have hF : (0 : ℝ) < (FFT_SIZE : ℝ) := by norm_num [FFT_SIZE]
  refine ⟨?_, ?_, by norm_num [MIN_DB, MAX_DB], by norm_num [MIN_DB, MAX_DB],
    ?_, ?_, ?_⟩
  · unfold spectrumOf
    rw [getD_ofFn _ i h]
  · intro m hm
    have hpos : 0 < m / (FFT_SIZE : ℝ) := div_pos hm hF
    unfold normPipeline log10F
    rw [if_pos hpos]
    simp only [F32.mulF, F32.subF, F32.divF]
    rw [if_neg (by norm_num [MAX_DB, MIN_DB])]
  · intro db
    norm_num [MIN_DB, MAX_DB]
    ring
  · refine ⟨(FFT_SIZE : ℝ) * (10 : ℝ) ^ (-6 : ℝ),
      mul_pos hF (Real.rpow_pos_of_pos (by norm_num) _), ?_⟩
    have hq : (FFT_SIZE : ℝ) * (10 : ℝ) ^ (-6 : ℝ) / (FFT_SIZE : ℝ) =
        (10 : ℝ) ^ (-6 : ℝ) :=
      mul_div_cancel_left₀ _ (ne_of_gt hF)
    have hp6 : (0 : ℝ) < (10 : ℝ) ^ (-6 : ℝ) := Real.rpow_pos_of_pos (by norm_num) _
    unfold normPipeline log10F
    rw [hq, if_pos hp6, Real.logb_rpow (by norm_num) (by norm_num)]
    simp only [F32.mulF, F32.subF, F32.divF]
    rw [if_neg (by norm_num [MAX_DB, MIN_DB])]
    norm_num [MIN_DB, MAX_DB]
  · refine ⟨(FFT_SIZE : ℝ) * (10 : ℝ) ^ (3 : ℝ),
      mul_pos hF (Real.rpow_pos_of_pos (by norm_num) _), ?_⟩
    have hq : (FFT_SIZE : ℝ) * (10 : ℝ) ^ (3 : ℝ) / (FFT_SIZE : ℝ) =
        (10 : ℝ) ^ (3 : ℝ) :=
      mul_div_cancel_left₀ _ (ne_of_gt hF)
    have hp3 : (0 : ℝ) < (10 : ℝ) ^ (3 : ℝ) := Real.rpow_pos_of_pos (by norm_num) _
    unfold normPipeline log10F
    rw [hq, if_pos hp3, Real.logb_rpow (by norm_num) (by norm_num)]
    simp only [F32.mulF, F32.subF, F32.divF]
    rw [if_neg (by norm_num [MAX_DB, MIN_DB])]
    norm_num [MIN_DB, MAX_DB]

/-- Witness for C3 at the concrete transform input of all zeros (the empty
buffer) and bin 0. -/
theorem db_conversion_spec_witness :
    0 < FFT_SIZE / 2 ∧
      (((spectrumOf []).getD 0 0 = normPipeline (Complex.abs (dftBin [] 0))) ∧
      (∀ m : ℝ, 0 < m →
        normPipeline m =
          F32.fin ((Real.logb 10 (m / (FFT_SIZE : ℝ)) * 20 - MIN_DB) /
            (MAX_DB - MIN_DB))) ∧
      (MIN_DB - MIN_DB) / (MAX_DB - MIN_DB) = 0 ∧
      (MAX_DB - MIN_DB) / (MAX_DB - MIN_DB) = 1 ∧
      (∀ db : ℝ, (db - MIN_DB) / (MAX_DB - MIN_DB) = db / 60 + 1) ∧
      (∃ m : ℝ, 0 < m ∧ normPipeline m = F32.fin (-1)) ∧
      (∃ m : ℝ, 0 < m ∧ normPipeline m = F32.fin 2)) :=
  ⟨by norm_num [FFT_SIZE], db_conversion_spec [] 0 (by norm_num [FFT_SIZE])⟩
